import Mathlib

/-!
Verification of the `sap` directory-listing tool against its design
specification.  Each section shallowly embeds one subsystem of the Rust
source (`src/`) as executable Lean definitions and proves (or refutes)
the specification's claims about it.
-/

set_option maxHeartbeats 1000000

/-! ## Sort engine (`src/sort.rs`)

`by_meta` walks an assembled chain of `(SortOrder, SortFn)` pairs and
returns the first non-equal comparator verdict, with the configured
direction applied; `Ordering::reverse` swaps `Less` and `Greater`.
-/

/-- Rust `Ordering::reverse` (`std::cmp`): swaps `Less` and `Greater`,
keeps `Equal`. -/
def reverseOrdering : Ordering → Ordering
  | .lt => .gt
  | .eq => .eq
  | .gt => .lt

/-- The sort direction flag consumed by `sort.rs` (`SortOrder` in
`src/flags`): either the comparator's own direction or its reverse. -/
inductive SortOrder where
  | dirDefault
  | dirReverse
deriving DecidableEq, Repr

/-- The fragment of `Meta` (`src/meta/mod.rs`) that the aggregation and
sorting claims depend on: the entry's path (as components), its display
name, and the optional child list (`content`).  All other `Meta` fields
are presentation data that no claim mentions. -/
inductive Meta where
  | mk (path : List String) (name : String) (content : Option (List Meta))

/-- Path component list of a `Meta`. -/
def Meta.path : Meta → List String
  | .mk p _ _ => p

/-- Display name of a `Meta`. -/
def Meta.name : Meta → String
  | .mk _ n _ => n

/-- `content` field of a `Meta` (`None` until children are attached). -/
def Meta.content : Meta → Option (List Meta)
  | .mk _ _ c => c

/-- `sort::SortFn`: one comparator on `Meta` pairs. -/
def SortFn : Type := Meta → Meta → Ordering

/-- Application of a configured direction to a comparator verdict, as in
the `match direction` arm of `sort::by_meta`. -/
def applyDirection : SortOrder → Ordering → Ordering
  | .dirReverse, o => reverseOrdering o
  | .dirDefault, o => o

/-- `sort::by_meta`: try the comparators in configured order, return the
first non-equal verdict with its direction applied, `Equal` when the
chain is exhausted. -/
def byMeta (sorters : List (SortOrder × SortFn)) (a b : Meta) : Ordering :=
  match sorters with
  | [] => .eq
  | (direction, sorter) :: rest =>
    match sorter a b with
    | .eq => byMeta rest a b
    | o => applyDirection direction o

/-- If every comparator in the chain reports equal, `by_meta` is equal. -/
lemma byMeta_eq_of_all_eq (sorters : List (SortOrder × SortFn)) (a b : Meta)
    (hall : ∀ s ∈ sorters, s.2 a b = .eq) : byMeta sorters a b = .eq := by
  induction sorters with
  | nil => rfl
  | cons hd tl ih =>
    obtain ⟨dir, f⟩ := hd
    have h0 : f a b = .eq := hall (dir, f) (List.mem_cons_self _ _)
    have htl := ih (fun s hs => hall s (List.mem_cons_of_mem _ hs))
    simp only [byMeta, h0]
    exact htl

/-- The first comparator reporting non-equal determines `by_meta`, with
its direction applied. -/
lemma byMeta_eq_of_first_ne (sorters : List (SortOrder × SortFn)) (a b : Meta)
    (i : ℕ) (h : i < sorters.length)
    (hprev : ∀ j (hj : j < i), (sorters.get ⟨j, hj.trans h⟩).2 a b = .eq)
    (hne : (sorters.get ⟨i, h⟩).2 a b ≠ .eq) :
    byMeta sorters a b
      = applyDirection (sorters.get ⟨i, h⟩).1 ((sorters.get ⟨i, h⟩).2 a b) := by
  induction sorters generalizing i with
  | nil => exact absurd h (by simp)
  | cons hd tl ih =>
    obtain ⟨dir, f⟩ := hd
    match i with
    | 0 =>
      simp only [List.get] at hne ⊢
      cases hfab : f a b with
      | eq => exact absurd hfab hne
      | lt => simp only [byMeta, hfab]
      | gt => simp only [byMeta, hfab]
    | i + 1 =>
      have h0 : f a b = .eq := by
        have := hprev 0 (Nat.succ_pos _)
        simpa using this
      simp only [byMeta, h0]
      exact ih i (by simpa using h)
        (fun j hj => by
          have := hprev (j + 1) (by omega)
          simpa using this)
        (by simpa using hne)

/-- C5: `by_meta` evaluates the comparators in configured order; when
every comparator in the chain reports equal the result is equal, and
otherwise the first comparator reporting non-equal determines the result,
with its configured direction applied. -/
theorem by_meta_first_non_equal_wins (sorters : List (SortOrder × SortFn))
    (a b : Meta) :
    ((∀ s ∈ sorters, s.2 a b = .eq) → byMeta sorters a b = .eq)
    ∧ ∀ i (h : i < sorters.length),
        (∀ j (hj : j < i), (sorters.get ⟨j, hj.trans h⟩).2 a b = .eq) →
        (sorters.get ⟨i, h⟩).2 a b ≠ .eq →
        byMeta sorters a b
          = applyDirection (sorters.get ⟨i, h⟩).1 ((sorters.get ⟨i, h⟩).2 a b) :=
  ⟨byMeta_eq_of_all_eq sorters a b,
   fun i h hprev hne => byMeta_eq_of_first_ne sorters a b i h hprev hne⟩

/-- Concrete instantiation of `by_meta_first_non_equal_wins`: a single
reversed comparator that reports `lt` yields `gt`. -/
theorem by_meta_first_non_equal_wins_witness :
    byMeta [(SortOrder.dirReverse, (fun _ _ => Ordering.lt : SortFn))]
        (Meta.mk [] "a" none) (Meta.mk [] "b" none)
      = applyDirection SortOrder.dirReverse Ordering.lt :=
  (by_meta_first_non_equal_wins
      [(SortOrder.dirReverse, (fun _ _ => Ordering.lt : SortFn))]
      (Meta.mk [] "a" none) (Meta.mk [] "b" none)).2
    0 (by decide) (fun j hj => absurd hj (by omega)) (by decide)

/-! ## Version-control status cache (`src/git.rs`)

`GitStatus` derives `Ord` in Rust, so its severity order is the
declaration order.  `GitCache::inner_get` with `is_directory = true`
folds a component-wise `std::cmp::max` over every cached record whose
path starts with the queried directory path.  Paths are modelled as
component lists; `PathBuf::starts_with` is component-wise prefix.
-/

/-- The closed status enumeration of `src/git.rs`, in declaration
order (which is its derived `Ord` order). -/
inductive GitStatus where
  | default
  | unmodified
  | ignored
  | newInIndex
  | newInWorkdir
  | typechange
  | deleted
  | renamed
  | modified
  | conflicted
  | gitConflicted
deriving DecidableEq, Repr

/-- Position of a `GitStatus` in the declaration order. -/
def GitStatus.toNat : GitStatus → ℕ
  | .default => 0
  | .unmodified => 1
  | .ignored => 2
  | .newInIndex => 3
  | .newInWorkdir => 4
  | .typechange => 5
  | .deleted => 6
  | .renamed => 7
  | .modified => 8
  | .conflicted => 9
  | .gitConflicted => 10

/-- Rust `std::cmp::max` on `GitStatus` under the derived (declaration)
order: returns the second argument when the first is not greater. -/
def gitStatusMax (a b : GitStatus) : GitStatus :=
  if a.toNat ≤ b.toNat then b else a

/-- `git::GitStatusInfo`: optional index- and workdir-status of a record
as produced by the status scan. -/
structure GitStatusInfo where
  indexStatus : Option GitStatus
  workdirStatus : Option GitStatus
deriving DecidableEq, Repr

/-- `meta::git_file_status::GitFileStatus`: the index/worktree status
pair attached to an entry. -/
structure GitFileStatus where
  index : GitStatus
  workdir : GitStatus
deriving DecidableEq, Repr

/-- `GitFileStatus::default()`: both components `Default`. -/
def gitFileStatusDefault : GitFileStatus :=
  ⟨GitStatus.default, GitStatus.default⟩

/-- `GitFileStatus::from_gix_status`: missing components default to
`Unmodified`. -/
def GitFileStatus.fromGixStatus (si : GitStatusInfo) : GitFileStatus :=
  ⟨si.indexStatus.getD .unmodified, si.workdirStatus.getD .unmodified⟩

/-- `git::GitCache`: the one-shot list of (canonical path, status info)
pairs materialized at construction. -/
structure GitCache where
  statuses : List (List String × GitStatusInfo)

/-- `GitCache::inner_get`: for a directory, the component-wise maximum
fold over all records whose path has the query as a prefix; for a file,
the single matching record or the default. -/
def GitCache.innerGet (c : GitCache) (filepath : List String)
    (isDirectory : Bool) : GitFileStatus :=
  if isDirectory then
    ((c.statuses.filter (fun x => filepath.isPrefixOf x.1)).map
        (fun x => GitFileStatus.fromGixStatus x.2)).foldl
      (fun acc x =>
        ⟨gitStatusMax acc.index x.index, gitStatusMax acc.workdir x.workdir⟩)
      gitFileStatusDefault
  else
    ((c.statuses.find? (fun x => filepath == x.1)).map
        (fun e => GitFileStatus.fromGixStatus e.2)).getD gitFileStatusDefault

/-- `GitCache::get`: the query path is canonicalized first; a failed
canonicalization (modelled as `none`) yields no status, a successful one
is answered by `inner_get`. -/
def GitCache.get (c : GitCache) (canonical : Option (List String))
    (isDirectory : Bool) : Option GitFileStatus :=
  match canonical with
  | some filename => some (c.innerGet filename isDirectory)
  | none => none

/-- `GitCache::empty`. -/
def GitCache.empty : GitCache := ⟨[]⟩

/-- The repository handle produced by `gix::discover`, at the level of
detail `GitCache::new` consumes it: an optional canonical workdir and
the result of the up-front status scan.  `statusScan = none` models a
failing `repo.status(..)` platform or status iterator; a successful scan
is the already-converted (canonical path, status) list. -/
structure GixRepo where
  workdir : Option (List String)
  statusScan : Option (List (List String × GitStatusInfo))

/-- `GitCache::new`: discovery failure (`none`), a missing workdir, or a
failing status scan all construct an empty cache instead of an error. -/
def GitCache.new (repo : Option GixRepo) : GitCache :=
  match repo with
  | none => GitCache.empty
  | some r =>
    match r.workdir with
    | none => GitCache.empty
    | some _ =>
      match r.statusScan with
      | none => { statuses := [] }
      | some items => { statuses := items }

/-- Maximum severity of a status list under the declaration order,
starting from `Default` (the no-status record). -/
def severityMax (l : List GitStatus) : GitStatus :=
  l.foldl gitStatusMax .default

/-- The records of the cache whose path has `d` as a prefix, converted
to `GitFileStatus`. -/
def dirMatching (c : GitCache) (d : List String) : List GitFileStatus :=
  (c.statuses.filter (fun x => d.isPrefixOf x.1)).map
    (fun x => GitFileStatus.fromGixStatus x.2)

/-- `gitStatusMax` computes the numeric maximum of the declaration-order
positions. -/
lemma toNat_gitStatusMax (a b : GitStatus) :
    (gitStatusMax a b).toNat = Nat.max a.toNat b.toNat := by
  unfold gitStatusMax
  split
  · next h => exact (Nat.max_eq_right h).symm
  · next h => exact (Nat.max_eq_left (le_of_not_le h)).symm

/-- The component-wise pair fold of `inner_get` equals the pair of
per-component folds. -/
lemma foldl_componentwise (l : List GitFileStatus) (acc : GitFileStatus) :
    l.foldl
      (fun acc x =>
        ⟨gitStatusMax acc.index x.index, gitStatusMax acc.workdir x.workdir⟩)
      acc
    = ⟨(l.map GitFileStatus.index).foldl gitStatusMax acc.index,
       (l.map GitFileStatus.workdir).foldl gitStatusMax acc.workdir⟩ := by
  induction l generalizing acc with
  | nil => rfl
  | cons hd tl ih =>
    simp only [List.foldl_cons, List.map_cons]
    exact ih _

/-- Every element of a list is bounded by the `gitStatusMax` fold over
it. -/
lemma mem_le_foldl_gitStatusMax (l : List GitStatus) (acc x : GitStatus)
    (hx : x ∈ l) : x.toNat ≤ (l.foldl gitStatusMax acc).toNat := by
  induction l generalizing acc with
  | nil => exact absurd hx (List.not_mem_nil x)
  | cons hd tl ih =>
    rcases List.mem_cons.mp hx with h | h
    · subst h
      have hmono : ∀ (m : List GitStatus) (a : GitStatus),
          a.toNat ≤ (m.foldl gitStatusMax a).toNat := by
        intro m
        induction m with
        | nil => intro a; exact le_rfl
        | cons mh mt mih =>
          intro a
          have h1 : a.toNat ≤ (gitStatusMax a mh).toNat := by
            rw [toNat_gitStatusMax]; exact Nat.le_max_left _ _
          exact h1.trans (mih (gitStatusMax a mh))
      have := hmono tl (gitStatusMax acc x)
      have hx1 : x.toNat ≤ (gitStatusMax acc x).toNat := by
        rw [toNat_gitStatusMax]; exact Nat.le_max_right _ _
      exact le_trans hx1 this
    · exact ih _ h

/-- C4: for every cache and directory path `d`, the `is_directory = true`
lookup equals the component-wise (index and worktree separately)
maximum-severity fold over all cached records whose path has `d` as a
prefix; in particular when the matching records include one whose
worktree status is `Modified` and one whose worktree status is `Ignored`,
the result's worktree severity is at least `Modified` and is neither
`Ignored` nor `Unmodified`. -/
theorem git_dir_status_component_max (c : GitCache) (d : List String) :
    c.innerGet d true
      = ⟨severityMax ((dirMatching c d).map GitFileStatus.index),
         severityMax ((dirMatching c d).map GitFileStatus.workdir)⟩
    ∧ ∀ x ∈ dirMatching c d, x.workdir = .modified →
      ∀ y ∈ dirMatching c d, y.workdir = .ignored →
        GitStatus.modified.toNat ≤ (c.innerGet d true).workdir.toNat
        ∧ (c.innerGet d true).workdir ≠ .ignored
        ∧ (c.innerGet d true).workdir ≠ .unmodified := by
  have hfold : c.innerGet d true
      = ⟨severityMax ((dirMatching c d).map GitFileStatus.index),
         severityMax ((dirMatching c d).map GitFileStatus.workdir)⟩ := by
    show (dirMatching c d).foldl _ gitFileStatusDefault = _
    exact foldl_componentwise (dirMatching c d) gitFileStatusDefault
  refine ⟨hfold, fun x hx hxw y hy hyw => ?_⟩
  have hmem : GitStatus.modified ∈ (dirMatching c d).map GitFileStatus.workdir := by
    exact List.mem_map.mpr ⟨x, hx, hxw⟩
  have hle : GitStatus.modified.toNat
      ≤ (severityMax ((dirMatching c d).map GitFileStatus.workdir)).toNat :=
    mem_le_foldl_gitStatusMax _ _ _ hmem
  have hw : (c.innerGet d true).workdir
      = severityMax ((dirMatching c d).map GitFileStatus.workdir) := by
    rw [hfold]
  refine ⟨?_, ?_, ?_⟩
  · rw [hw]; exact hle
  · rw [hw]
    intro heq
    rw [heq] at hle
    simp [GitStatus.toNat] at hle
  · rw [hw]
    intro heq
    rw [heq] at hle
    simp [GitStatus.toNat] at hle

/-- Concrete instantiation of `git_dir_status_component_max`: a cache
holding a modified and an ignored descendant of `r` reports a worktree
severity that is at least `Modified` for the directory `r`. -/
theorem git_dir_status_component_max_witness :
    (GitFileStatus.mk .unmodified .modified
        ∈ dirMatching ⟨[(["r", "a"], ⟨none, some .modified⟩),
                        (["r", "b"], ⟨none, some .ignored⟩)]⟩ ["r"])
    ∧ GitStatus.modified.toNat
        ≤ ((GitCache.mk [(["r", "a"], ⟨none, some .modified⟩),
                         (["r", "b"], ⟨none, some .ignored⟩)]).innerGet
            ["r"] true).workdir.toNat :=
  ⟨by decide,
   ((git_dir_status_component_max
        ⟨[(["r", "a"], ⟨none, some .modified⟩),
          (["r", "b"], ⟨none, some .ignored⟩)]⟩ ["r"]).2
      ⟨.unmodified, .modified⟩ (by decide) rfl
      ⟨.unmodified, .ignored⟩ (by decide) rfl).1⟩

/-- `inner_get` on an empty cache is the default record for files and
directories alike. -/
lemma innerGet_empty (p : List String) (b : Bool) :
    (GitCache.mk []).innerGet p b = gitFileStatusDefault := by
  cases b <;> rfl

/-- C8: if repository discovery fails, or no working directory is found,
or status retrieval fails, `GitCache::new` constructs an empty cache, and
every lookup whose path canonicalizes successfully then returns the
default (no-status) record. -/
theorem git_cache_degrades_to_empty (repo : Option GixRepo)
    (h : repo = none
      ∨ ∃ r, repo = some r ∧ (r.workdir = none ∨ r.statusScan = none)) :
    (GitCache.new repo).statuses = []
    ∧ ∀ (p : List String) (b : Bool),
        (GitCache.new repo).get (some p) b = some gitFileStatusDefault := by
  have hempty : GitCache.new repo = ⟨[]⟩ := by
    rcases h with h | ⟨r, hr, hcase⟩
    · subst h; rfl
    · subst hr
      rcases hcase with hw | hs
      · simp [GitCache.new, hw, GitCache.empty]
      · cases hrw : r.workdir with
        | none => simp [GitCache.new, hrw, GitCache.empty]
        | some w => simp [GitCache.new, hrw, hs]
  rw [hempty]
  exact ⟨rfl, fun p b => by
    show some ((GitCache.mk []).innerGet p b) = some gitFileStatusDefault
    rw [innerGet_empty]⟩

/-- Concrete instantiation of `git_cache_degrades_to_empty`: failed
discovery yields an empty cache whose lookups all return the default
record. -/
theorem git_cache_degrades_to_empty_witness :
    (GitCache.new none).statuses = []
    ∧ (GitCache.new none).get (some ["x"]) true = some gitFileStatusDefault :=
  ⟨(git_cache_degrades_to_empty none (Or.inl rfl)).1,
   (git_cache_degrades_to_empty none (Or.inl rfl)).2 ["x"] true⟩

/-! ## Output shield (`src/llm/shield.rs`)

`Shield::process` serializes the payload once (serde's array form,
entries joined by commas inside brackets), compares the byte size with
the fixed 10 MiB threshold, and either passes the payload through or
writes it line-by-line (JSONL) to a fresh file and returns a summary.
The entry serializer and the freshly generated file name (a UUID in the
source) are parameters; the bytes written by `fs::write` are carried in
the result so the write can be reasoned about.  Summary statistics not
touched by any claim (top-level dirs, per-kind counts, largest dirs,
marker files) are omitted from the summary record.
-/

/-- `MAX_JSON_SIZE_BYTES`: the fixed 10 MiB threshold. -/
def MAX_JSON_SIZE_BYTES : ℕ := 10 * 1024 * 1024

/-- serde's `to_string` of a `Vec`: the serialized entries joined by
commas inside square brackets.  This is the string whose byte length
`Shield::process` measures. -/
def serializeArray {α : Type} (ser : α → String) (data : List α) : String :=
  "[" ++ String.intercalate "," (data.map ser) ++ "]"

/-- The summary fields of `ShieldSummary` that the claims mention. -/
structure ShieldSummary where
  total_entries : ℕ
  total_size_bytes : ℕ
  file_path : String
deriving DecidableEq, Repr

/-- `shield::ShieldResult`: pass the payload through unchanged, or
report the spill file together with its summary. -/
inductive ShieldResult (α : Type) where
  | passThrough (data : List α)
  | fileShielded (path : String) (originalSize : ℕ) (entryCount : ℕ)
      (fileContent : String) (summary : ShieldSummary)

/-- `Shield::process`: measure the serialized payload once; at or under
the threshold return it unchanged, otherwise accumulate one line per
record (entry serialization followed by a newline) into the file content
and build the summary.  `generate_summary` re-serializes the data for
`total_size_bytes` and sets `total_entries` to the record count. -/
def Shield.process {α : Type} (ser : α → String) (freshName : String)
    (data : List α) : ShieldResult α :=
  let jsonString := serializeArray ser data
  let sizeBytes := jsonString.utf8ByteSize
  if sizeBytes ≤ MAX_JSON_SIZE_BYTES then
    .passThrough data
  else
    let fileContent := data.foldl (fun acc e => acc ++ ser e ++ "\n") ""
    .fileShielded freshName sizeBytes data.length fileContent
      { total_entries := data.length
        total_size_bytes := (serializeArray ser data).utf8ByteSize
        file_path := freshName }

/-- Split a character list at newline characters (the line structure of
the spill file). -/
def splitLines : List Char → List (List Char)
  | [] => [[]]
  | c :: rest =>
    if c = '\n' then [] :: splitLines rest
    else
      match splitLines rest with
      | [] => [[c]]
      | l :: ls => (c :: l) :: ls

/-- Splitting after a newline-free segment followed by a newline peels
off that segment as one line. -/
lemma splitLines_segment (s rest : List Char) (hs : '\n' ∉ s) :
    splitLines (s ++ '\n' :: rest) = s :: splitLines rest := by
  induction s with
  | nil => simp [splitLines]
  | cons c cs ih =>
    have hc : c ≠ '\n' := fun h => hs (h ▸ List.mem_cons_self c cs)
    have hcs : '\n' ∉ cs := fun h => hs (List.mem_cons_of_mem c h)
    have ih2 := ih hcs
    simp only [List.cons_append, splitLines, if_neg hc]
    rw [show cs.append ('\n' :: rest) = cs ++ '\n' :: rest from rfl, ih2]

/-- Joining newline-terminated, newline-free segments and splitting at
newlines recovers the segments (plus the empty tail after the final
newline). -/
lemma splitLines_join (l : List (List Char)) (h : ∀ s ∈ l, '\n' ∉ s) :
    splitLines ((l.map (fun s => s ++ ['\n'])).flatten) = l ++ [[]] := by
  induction l with
  | nil => rfl
  | cons s rest ih =>
    have hs : '\n' ∉ s := h s (List.mem_cons_self s rest)
    have hrest := ih (fun t ht => h t (List.mem_cons_of_mem s ht))
    have hjoin : ((s :: rest).map (fun t => t ++ ['\n'])).flatten
        = s ++ '\n' :: ((rest.map (fun t => t ++ ['\n'])).flatten) := by
      simp
    rw [hjoin, splitLines_segment s _ hs, hrest]
    rfl

/-- The character data accumulated by the line-writing fold. -/
lemma foldl_fileContent_data {α : Type} (ser : α → String) (data : List α)
    (start : String) :
    (data.foldl (fun acc e => acc ++ ser e ++ "\n") start).data
      = start.data ++ (data.map (fun e => (ser e).data ++ ['\n'])).flatten := by
  induction data generalizing start with
  | nil => simp
  | cons hd tl ih =>
    simp only [List.foldl_cons, List.map_cons, List.flatten_cons, ih,
      String.data_append, List.append_assoc]

/-- C3: `Shield::process` measures the serialized payload; at or under
the 10 MiB threshold the payload is returned unchanged as PassThrough,
and one byte over it produces a spill whose file content holds exactly
one line per input record (in order) and whose summary counts exactly
the input records. -/
theorem shield_process_threshold {α : Type} (ser : α → String)
    (freshName : String) (data : List α) :
    ((serializeArray ser data).utf8ByteSize ≤ MAX_JSON_SIZE_BYTES →
      Shield.process ser freshName data = .passThrough data)
    ∧ (MAX_JSON_SIZE_BYTES < (serializeArray ser data).utf8ByteSize →
        ∃ content summary,
          Shield.process ser freshName data
            = .fileShielded freshName (serializeArray ser data).utf8ByteSize
                data.length content summary
          ∧ summary.total_entries = data.length
          ∧ ((∀ e ∈ data, '\n' ∉ (ser e).data) →
              splitLines content.data
                = data.map (fun e => (ser e).data) ++ [[]])) := by
  constructor
  · intro hle
    unfold Shield.process
    simp only [if_pos hle]
  · intro hgt
    refine ⟨data.foldl (fun acc e => acc ++ ser e ++ "\n") "",
      ⟨data.length, (serializeArray ser data).utf8ByteSize, freshName⟩, ?_, rfl, ?_⟩
    · unfold Shield.process
      simp only [if_neg (not_le.mpr hgt)]
    · intro hnl
      rw [foldl_fileContent_data]
      have hmm : (data.map (fun e => (ser e).data ++ ['\n'])).flatten
          = ((data.map (fun e => (ser e).data)).map (fun s => s ++ ['\n'])).flatten := by
        simp only [List.map_map]
        rfl
      rw [show ("" : String).data = [] from rfl, List.nil_append, hmm,
        splitLines_join]
      intro s hs
      rcases List.mem_map.mp hs with ⟨e, he, rfl⟩
      exact hnl e he

/-- `utf8Len` of a run of `n` copies of a one-byte character is `n`. -/
lemma utf8Len_replicate_a (n : ℕ) :
    String.utf8Len (List.replicate n 'a') = n := by
  induction n with
  | zero => rfl
  | succ k ih =>
    have h1 : ('a').utf8Size = 1 := by decide
    simp [List.replicate_succ, String.utf8Len_cons, ih, h1]

/-- Byte size distributes over string concatenation. -/
lemma utf8ByteSize_append (s t : String) :
    (s ++ t).utf8ByteSize = s.utf8ByteSize + t.utf8ByteSize := by
  cases s with
  | mk a =>
    cases t with
    | mk b =>
      show (String.mk (a ++ b)).utf8ByteSize = _
      rw [String.utf8ByteSize_mk, String.utf8ByteSize_mk,
        String.utf8ByteSize_mk, String.utf8Len_append]

/-- A payload of one record serializing to one byte over the threshold. -/
def overflowRecord : String := String.mk (List.replicate (MAX_JSON_SIZE_BYTES - 1) 'a')

/-- Concrete instantiation of `shield_process_threshold`: a single
record of 10 MiB − 1 bytes serializes with the two array brackets to one
byte over the threshold, spills, and is counted exactly once. -/
theorem shield_process_threshold_witness :
    ∃ content summary,
      Shield.process (fun _ : Unit => overflowRecord) "spill.jsonl" [()]
        = .fileShielded "spill.jsonl"
            (serializeArray (fun _ : Unit => overflowRecord) [()]).utf8ByteSize
            ([()] : List Unit).length content summary
      ∧ summary.total_entries = ([()] : List Unit).length
      ∧ ((∀ e ∈ ([()] : List Unit), '\n' ∉ ((fun _ : Unit => overflowRecord) e).data) →
          splitLines content.data
            = ([()] : List Unit).map (fun e => ((fun _ : Unit => overflowRecord) e).data) ++ [[]]) :=
  (shield_process_threshold (fun _ : Unit => overflowRecord) "spill.jsonl" [()]).2
    (by
      have harr : serializeArray (fun _ : Unit => overflowRecord) [()]
          = "[" ++ overflowRecord ++ "]" := rfl
      have hov : overflowRecord.utf8ByteSize = MAX_JSON_SIZE_BYTES - 1 := by
        show (String.mk (List.replicate (MAX_JSON_SIZE_BYTES - 1) 'a')).utf8ByteSize = _
        rw [String.utf8ByteSize_mk, utf8Len_replicate_a]
      rw [harr, utf8ByteSize_append, utf8ByteSize_append, hov]
      have hlb : ("[" : String).utf8ByteSize = 1 := by decide
      have hrb : ("]" : String).utf8ByteSize = 1 := by decide
      rw [hlb, hrb]
      norm_num [MAX_JSON_SIZE_BYTES])

/-! ## Ignore patterns (`src/flags/ignore_globs.rs`)

`classify_pattern` sorts each pattern into an extension set (lowercased),
an exact-name set, or the compiled complex-glob set; `is_match` tries the
extension lookup, then the exact-name lookup, then the complex globs.
Glob matching (`globset` with default options) is modelled by
`globMatch`: `*` matches any character sequence, `?` exactly one
character, and every other character only itself, case-sensitively.
Character-class patterns (`[..]`) are always classified Complex, where
`is_match` and direct matching run the very same matcher, so the class
syntax needs no interpretation of its own here. Rust's Unicode
`to_lowercase` is modelled on the ASCII range (`Char.toLower`), which
covers every pattern the program constructs. The `HashSet` buckets are
modelled as lists with membership lookup, and the `Glob::new`
compilation error path (impossible for the patterns the claims touch) is
not modelled.
-/

/-- One step of glob matching, on explicit fuel (the recursion consumes
one pattern or one name character per step). -/
def globMatchAux : ℕ → List Char → List Char → Bool
  | 0, _, _ => false
  | _ + 1, [], [] => true
  | _ + 1, [], _ :: _ => false
  | fuel + 1, p :: ps, n =>
    if p = '*' then
      globMatchAux fuel ps n
        || (match n with
            | [] => false
            | _ :: ns => globMatchAux fuel (p :: ps) ns)
    else
      match n with
      | [] => false
      | c :: ns => (p = '?' || c = p) && globMatchAux fuel ps ns

/-- Glob matching of one pattern against one candidate name. -/
def globMatch (pattern name : String) : Bool :=
  globMatchAux (pattern.length + name.length + 1) pattern.data name.data

/-- ASCII lowercasing (Rust `str::to_lowercase` restricted to the ASCII
range, which covers the extension patterns the program builds). -/
def asciiToLower (s : String) : String := String.mk (s.data.map Char.toLower)

/-- The glob metacharacters `classify_pattern` tests for. -/
def isGlobMeta (c : Char) : Bool := c = '*' || c = '?' || c = '[' || c = ']'

/-- `ignore_globs::PatternType`. -/
inductive PatternType where
  | extension (ext : String)
  | exactName (name : String)
  | complex (pattern : String)
deriving DecidableEq, Repr

/-- `IgnoreGlobs::classify_pattern`: `"*."` followed by no further
wildcard or dot yields Extension (lowercased), no metacharacters at all
yields ExactName (case preserved), anything else is Complex. -/
def classifyPattern (p : String) : PatternType :=
  if p.data.take 2 = ['*', '.'] ∧
      ¬ (p.data.drop 2).any (fun c => isGlobMeta c || c = '.') then
    .extension (asciiToLower (String.mk (p.data.drop 2)))
  else if ¬ p.data.any isGlobMeta then
    .exactName p
  else
    .complex p

/-- `flags::IgnoreGlobs`: the three classified pattern buckets. -/
structure IgnoreGlobs where
  extensions : List String
  exact_names : List String
  complex_globs : List String
deriving DecidableEq, Repr

/-- `IgnoreGlobs::from_patterns`: classify every pattern into its
bucket. -/
def IgnoreGlobs.fromPatterns (patterns : List String) : IgnoreGlobs :=
  patterns.foldl
    (fun g p =>
      match classifyPattern p with
      | .extension e => { g with extensions := g.extensions ++ [e] }
      | .exactName n => { g with exact_names := g.exact_names ++ [n] }
      | .complex c => { g with complex_globs := g.complex_globs ++ [c] })
    ⟨[], [], []⟩

/-- Rust `Path::extension()` on a bare file name: the portion after the
last dot, none when there is no dot or when the name is `".."` or a
leading-dot name with no other dot. -/
def rustExtension (name : String) : Option String :=
  if name = ".." then none
  else
    let rev := name.data.reverse
    match rev.findIdx? (fun c => c = '.') with
    | none => none
    | some i =>
      if rev.drop (i + 1) = [] then none
      else some (String.mk ((rev.take i).reverse))

/-- `IgnoreGlobs::is_match`: extension lookup (lowercased, O(1)), then
exact-name lookup, then the complex globs; first hit wins. -/
def IgnoreGlobs.isMatch (g : IgnoreGlobs) (name : String) : Bool :=
  (match rustExtension name with
   | some ext => g.extensions.contains (asciiToLower ext)
   | none => false)
  || g.exact_names.contains name
  || g.complex_globs.any (fun p => globMatch p name)

/-- Modelled from the spec: direct matching of the original pattern
strings as glob patterns, the reference behavior the classification is
claimed to be equivalent to ("classification is an optimization, not an
observable"). -/
def directGlobMatch (patterns : List String) (name : String) : Bool :=
  patterns.any (fun p => globMatch p name)

/-- The per-pattern verdict actually implemented by the classified
matcher: ExactName- and Complex-classified patterns contribute their
glob-match verdict, Extension-classified patterns contribute the
case-insensitive comparison with the candidate's final extension. -/
def effectivePatternMatch (name p : String) : Bool :=
  match classifyPattern p with
  | .extension e =>
    match rustExtension name with
    | some x => asciiToLower x == e
    | none => false
  | .exactName _ => globMatch p name
  | .complex _ => globMatch p name

/-- An ExactName classification stores the pattern itself. -/
lemma classifyPattern_exactName {p s : String}
    (h : classifyPattern p = .exactName s) : s = p := by
  unfold classifyPattern at h
  split at h
  · exact absurd h (by simp)
  · split at h
    · cases h; rfl
    · exact absurd h (by simp)

/-- A Complex classification stores the pattern itself. -/
lemma classifyPattern_complex {p s : String}
    (h : classifyPattern p = .complex s) : s = p := by
  unfold classifyPattern at h
  split at h
  · exact absurd h (by simp)
  · split at h
    · exact absurd h (by simp)
    · cases h; rfl

/-- An ExactName-classified pattern contains no glob metacharacter. -/
lemma classifyPattern_exactName_noMeta {p s : String}
    (h : classifyPattern p = .exactName s) : p.data.any isGlobMeta = false := by
  unfold classifyPattern at h
  split at h
  · exact absurd h (by simp)
  · split at h
    · next hcond => exact Bool.not_eq_true _ ▸ eq_false_of_ne_true (by simpa using hcond)
    · exact absurd h (by simp)

/-- Fuel-indexed glob matching of a metacharacter-free pattern is string
equality. -/
lemma globMatchAux_literal (p : List Char) (hp : p.any isGlobMeta = false) :
    ∀ (fuel : ℕ) (n : List Char), p.length + 1 ≤ fuel →
      globMatchAux fuel p n = decide (p = n) := by
  induction p with
  | nil =>
    intro fuel n hfuel
    match fuel, hfuel with
    | f + 1, _ =>
      cases n with
      | nil => simp [globMatchAux]
      | cons c ns => simp [globMatchAux]
  | cons c cs ih =>
    intro fuel n hfuel
    have hmeta : isGlobMeta c = false ∧ cs.any isGlobMeta = false := by
      simpa [List.any_cons] using hp
    have hcstar : c ≠ '*' := by
      intro hcontra
      simp [isGlobMeta, hcontra] at hmeta
    have hcq : c ≠ '?' := by
      intro hcontra
      simp [isGlobMeta, hcontra] at hmeta
    match fuel, hfuel with
    | f + 1, hf =>
      cases n with
      | nil =>
        have hred : globMatchAux (f + 1) (c :: cs) [] = false := by
          simp only [globMatchAux]
          rw [if_neg hcstar]
        rw [hred]
        simp
      | cons d ns =>
        have hfs : cs.length + 1 ≤ f := by
          simp only [List.length_cons] at hf
          omega
        have hred : globMatchAux (f + 1) (c :: cs) (d :: ns)
            = ((decide (c = '?') || decide (d = c)) && globMatchAux f cs ns) := by
          simp only [globMatchAux]
          rw [if_neg hcstar]
        rw [hred, ih hmeta.2 f ns hfs]
        by_cases hdc : d = c
        · subst hdc
          by_cases hcsns : cs = ns
          · subst hcsns
            simp [hcq]
          · simp [hcq, hcsns]
        · have : ¬ (c :: cs = d :: ns) := by
            intro hcontra
            exact hdc (by injection hcontra with h1 _; exact h1.symm)
          simp [hcq, hdc, this]

/-- Glob matching of a metacharacter-free pattern is string equality. -/
lemma globMatch_literal (p n : String) (hp : p.data.any isGlobMeta = false) :
    globMatch p n = decide (p = n) := by
  unfold globMatch
  rw [globMatchAux_literal p.data hp _ n.data (by
    show p.data.length + 1 ≤ p.data.length + n.data.length + 1
    omega)]
  exact decide_eq_decide.mpr String.ext_iff.symm

/-- The extension bucket selector of a classified pattern. -/
def extOf (p : String) : Option String :=
  match classifyPattern p with
  | .extension e => some e
  | _ => none

/-- The exact-name bucket selector of a classified pattern. -/
def nameOf (p : String) : Option String :=
  match classifyPattern p with
  | .exactName n => some n
  | _ => none

/-- The complex bucket selector of a classified pattern. -/
def globOf (p : String) : Option String :=
  match classifyPattern p with
  | .complex c => some c
  | _ => none

/-- The classification fold fills the three buckets with exactly the
correspondingly classified patterns, in order. -/
lemma fromPatterns_buckets (ps : List String) (g : IgnoreGlobs) :
    ps.foldl
      (fun g p =>
        match classifyPattern p with
        | .extension e => { g with extensions := g.extensions ++ [e] }
        | .exactName n => { g with exact_names := g.exact_names ++ [n] }
        | .complex c => { g with complex_globs := g.complex_globs ++ [c] })
      g
    = ⟨g.extensions ++ ps.filterMap extOf,
       g.exact_names ++ ps.filterMap nameOf,
       g.complex_globs ++ ps.filterMap globOf⟩ := by
  induction ps generalizing g with
  | nil => simp
  | cons hd tl ih =>
    simp only [List.foldl_cons]
    cases hcl : classifyPattern hd with
    | extension e =>
      rw [ih]
      simp [extOf, nameOf, globOf, hcl, List.filterMap_cons, List.append_assoc]
    | exactName n =>
      rw [ih]
      simp [extOf, nameOf, globOf, hcl, List.filterMap_cons, List.append_assoc]
    | complex c =>
      rw [ih]
      simp [extOf, nameOf, globOf, hcl, List.filterMap_cons, List.append_assoc]

/-- Inversion for the exact-name bucket selector. -/
lemma nameOf_eq_some {p s : String} :
    nameOf p = some s ↔ classifyPattern p = .exactName s := by
  unfold nameOf
  cases hcl : classifyPattern p <;> simp [hcl]

/-- Inversion for the extension bucket selector. -/
lemma extOf_eq_some {p s : String} :
    extOf p = some s ↔ classifyPattern p = .extension s := by
  unfold extOf
  cases hcl : classifyPattern p <;> simp [hcl]

/-- Inversion for the complex bucket selector. -/
lemma globOf_eq_some {p s : String} :
    globOf p = some s ↔ classifyPattern p = .complex s := by
  unfold globOf
  cases hcl : classifyPattern p <;> simp [hcl]

/-- `effectivePatternMatch` on an ExactName-classified pattern. -/
lemma effective_of_exactName {p s : String} (name : String)
    (h : classifyPattern p = .exactName s) :
    effectivePatternMatch name p = globMatch p name := by
  unfold effectivePatternMatch
  rw [h]

/-- `effectivePatternMatch` on a Complex-classified pattern. -/
lemma effective_of_complex {p s : String} (name : String)
    (h : classifyPattern p = .complex s) :
    effectivePatternMatch name p = globMatch p name := by
  unfold effectivePatternMatch
  rw [h]

/-- `effectivePatternMatch` on an Extension-classified pattern. -/
lemma effective_of_extension {p e : String} (name : String)
    (h : classifyPattern p = .extension e) :
    effectivePatternMatch name p
      = (match rustExtension name with
         | some x => asciiToLower x == e
         | none => false) := by
  unfold effectivePatternMatch
  rw [h]

/-- C2 amended: for every pattern set and candidate name, `is_match` is
the disjunction over the patterns of their effective verdicts, where
ExactName- and Complex-classified patterns contribute exactly the direct
glob-match verdict of the original pattern string, and
Extension-classified patterns (`*.ext`) contribute the case-insensitive
comparison of the candidate's final extension with `ext` (matching no
extension-less candidate) — which is where classification is
observable. -/
theorem ignore_globs_match_characterization (ps : List String)
    (name : String) :
    (IgnoreGlobs.fromPatterns ps).isMatch name
      = ps.any (effectivePatternMatch name) := by
  have hbuckets := fromPatterns_buckets ps ⟨[], [], []⟩
  unfold IgnoreGlobs.fromPatterns
  rw [hbuckets]
  simp only [List.nil_append]
  rw [Bool.eq_iff_iff]
  unfold IgnoreGlobs.isMatch
  cases hre : rustExtension name with
  | none =>
    simp only [Bool.or_eq_true, List.any_eq_true]
    constructor
    · intro h
      rcases h with hname | hglob
      · have hmem : name ∈ List.filterMap nameOf ps := by simpa using hname
        rcases List.mem_filterMap.mp hmem with ⟨p, hp, hof⟩
        have hcl := nameOf_eq_some.mp hof
        have hpn : name = p := classifyPattern_exactName hcl
        refine ⟨p, hp, ?_⟩
        rw [effective_of_exactName name hcl,
          globMatch_literal p name (classifyPattern_exactName_noMeta hcl)]
        simp [hpn]
      · rcases hglob with ⟨g', hg', hgm⟩
        rcases List.mem_filterMap.mp hg' with ⟨p, hp, hgof⟩
        have hcl := globOf_eq_some.mp hgof
        have hgp : g' = p := classifyPattern_complex hcl
        refine ⟨p, hp, ?_⟩
        rw [effective_of_complex name hcl, ← hgp]
        exact hgm
    · intro h
      rcases h with ⟨p, hp, heff⟩
      cases hcl : classifyPattern p with
      | extension e =>
        rw [effective_of_extension name hcl, hre] at heff
        exact absurd heff (by simp)
      | exactName s =>
        rw [effective_of_exactName name hcl,
          globMatch_literal p name (classifyPattern_exactName_noMeta hcl)] at heff
        have hpn : p = name := by simpa using heff
        left
        have hsp : s = p := classifyPattern_exactName hcl
        have : name ∈ List.filterMap nameOf ps :=
          List.mem_filterMap.mpr ⟨p, hp, by rw [nameOf_eq_some, hcl, hsp, hpn]⟩
        simpa using this
      | complex s =>
        rw [effective_of_complex name hcl] at heff
        have hsp : s = p := classifyPattern_complex hcl
        right
        refine ⟨p, ?_, heff⟩
        exact List.mem_filterMap.mpr ⟨p, hp, by rw [globOf_eq_some, hcl, hsp]⟩
  | some x =>
    simp only [Bool.or_eq_true, List.any_eq_true]
    constructor
    · intro h
      rcases h with (hext | hname) | hglob
      · have hmem : asciiToLower x ∈ List.filterMap extOf ps := by simpa using hext
        rcases List.mem_filterMap.mp hmem with ⟨p, hp, hof⟩
        have hcl := extOf_eq_some.mp hof
        refine ⟨p, hp, ?_⟩
        rw [effective_of_extension name hcl, hre]
        simp
      · have hmem : name ∈ List.filterMap nameOf ps := by simpa using hname
        rcases List.mem_filterMap.mp hmem with ⟨p, hp, hof⟩
        have hcl := nameOf_eq_some.mp hof
        have hpn : name = p := classifyPattern_exactName hcl
        refine ⟨p, hp, ?_⟩
        rw [effective_of_exactName name hcl,
          globMatch_literal p name (classifyPattern_exactName_noMeta hcl)]
        simp [hpn]
      · rcases hglob with ⟨g', hg', hgm⟩
        rcases List.mem_filterMap.mp hg' with ⟨p, hp, hgof⟩
        have hcl := globOf_eq_some.mp hgof
        have hgp : g' = p := classifyPattern_complex hcl
        refine ⟨p, hp, ?_⟩
        rw [effective_of_complex name hcl, ← hgp]
        exact hgm
    · intro h
      rcases h with ⟨p, hp, heff⟩
      cases hcl : classifyPattern p with
      | extension e =>
        rw [effective_of_extension name hcl, hre] at heff
        have hex : e = asciiToLower x := by
          have := heff
          simp at this
          exact this.symm
        have hmm : asciiToLower x ∈ List.filterMap extOf ps :=
          List.mem_filterMap.mpr ⟨p, hp, by rw [extOf_eq_some, hcl, hex]⟩
        exact Or.inl (Or.inl (by simpa using hmm))
      | exactName s =>
        rw [effective_of_exactName name hcl,
          globMatch_literal p name (classifyPattern_exactName_noMeta hcl)] at heff
        have hpn : p = name := by simpa using heff
        have hsp : s = p := classifyPattern_exactName hcl
        have hmm : name ∈ List.filterMap nameOf ps :=
          List.mem_filterMap.mpr ⟨p, hp, by rw [nameOf_eq_some, hcl, hsp, hpn]⟩
        exact Or.inl (Or.inr (by simpa using hmm))
      | complex s =>
        rw [effective_of_complex name hcl] at heff
        have hsp : s = p := classifyPattern_complex hcl
        refine Or.inr ⟨p, ?_, heff⟩
        exact List.mem_filterMap.mpr ⟨p, hp, by rw [globOf_eq_some, hcl, hsp]⟩

/-- C2 counterexample: the pattern `*.jpg` is classified Extension and
matched case-insensitively, so `is_match` accepts `file.JPG`, while the
direct glob match of `*.jpg` (case-sensitive, `globset` defaults)
rejects it — the classification is observable. -/
theorem ignore_globs_classification_observable :
    (IgnoreGlobs.fromPatterns ["*.jpg"]).isMatch "file.JPG" = true
    ∧ directGlobMatch ["*.jpg"] "file.JPG" = false := by
  constructor
  · decide
  · decide

/-! ## Traversal filtering (`src/stream/mod.rs`, `FileStream::new`)

Two filtering stages act on each discovered entry: the
`process_read_dir` callback drops any child whose (UTF-8 decodable)
name matches the ignore patterns — in every display mode, before
descending — and the per-entry display-mode filter then inspects the
name.  Both stages run only when `file_name().to_str()` succeeds; an
entry whose name is not valid UTF-8 (`nameUtf8 = none`) passes both
untouched.
-/

/-- The display-mode selector consumed by `FileStream::new`
(`flags::Display`). -/
inductive Display where
  | visibleOnly
  | almostAll
  | all
  | directoryOnly
  | systemProtected
deriving DecidableEq, Repr

/-- A traversal entry as the two filter stages see it: the result of
`file_name().to_str()` and whether `file_type().is_dir()`. -/
structure WalkEntry where
  nameUtf8 : Option String
  isDir : Bool

/-- The `children.retain(..)` predicate of `process_read_dir`: drop a
child whose decodable name matches the ignore patterns, retain
everything else (including names that fail to decode). -/
def ignoreRetain (ig : IgnoreGlobs) (nameUtf8 : Option String) : Bool :=
  match nameUtf8 with
  | some s => ! ig.isMatch s
  | none => true

/-- The per-entry display-mode filter of `FileStream::new`: evaluated
only when the name decodes; visible-only drops dot-prefixed names,
almost-all drops `.` and `..`, directory-only drops non-directories,
all and system-protected keep everything. -/
def displayKeep (mode : Display) (nameUtf8 : Option String)
    (isDir : Bool) : Bool :=
  match nameUtf8 with
  | some name =>
    match mode with
    | .visibleOnly => ! name.startsWith "."
    | .almostAll => ! (name == "." || name == "..")
    | .all => true
    | .directoryOnly => isDir
    | .systemProtected => true
  | none => true

/-- Whether an entry survives both stages of `FileStream::new` and is
emitted. -/
def fileStreamKeep (ig : IgnoreGlobs) (mode : Display) (e : WalkEntry) :
    Bool :=
  ignoreRetain ig e.nameUtf8 && displayKeep mode e.nameUtf8 e.isDir

/-- C9 counterexample: in mode All — which the claim says keeps
everything — an entry named `node_modules` is dropped by the
ignore-pattern stage, which `FileStream::new` applies in every display
mode. -/
theorem display_filter_all_drops_ignored :
    fileStreamKeep (IgnoreGlobs.fromPatterns ["node_modules"]) Display.all
      ⟨some "node_modules", true⟩ = false := by
  decide

/-- C9 amended: for an entry whose name decodes as UTF-8, every display
mode drops it when the ignore-pattern matcher matches the name (the
pruning stage is mode-independent); among unmatched entries,
visible-only drops exactly the dot-prefixed names, almost-all drops
exactly `.` and `..`, all and system-protected keep everything, and
directory-only keeps exactly the directories. -/
theorem display_mode_filter_characterization (ig : IgnoreGlobs)
    (e : WalkEntry) (s : String) (hname : e.nameUtf8 = some s) :
    (∀ mode, ig.isMatch s = true → fileStreamKeep ig mode e = false)
    ∧ (ig.isMatch s = false →
        fileStreamKeep ig .visibleOnly e = ! s.startsWith "."
        ∧ fileStreamKeep ig .almostAll e = ! (s == "." || s == "..")
        ∧ fileStreamKeep ig .all e = true
        ∧ fileStreamKeep ig .directoryOnly e = e.isDir
        ∧ fileStreamKeep ig .systemProtected e = true) := by
  constructor
  · intro mode hmatch
    simp [fileStreamKeep, ignoreRetain, hname, hmatch]
  · intro hnomatch
    refine ⟨?_, ?_, ?_, ?_, ?_⟩ <;>
      simp [fileStreamKeep, ignoreRetain, displayKeep, hname, hnomatch]

/-- Concrete instantiation of `display_mode_filter_characterization`:
`README` is not ignored, and visible-only keeps it since it has no
leading dot. -/
theorem display_mode_filter_characterization_witness :
    (IgnoreGlobs.fromPatterns ["node_modules"]).isMatch "README" = false
    ∧ fileStreamKeep (IgnoreGlobs.fromPatterns ["node_modules"])
        Display.visibleOnly ⟨some "README", false⟩
      = ! ("README".startsWith ".") :=
  ⟨by decide,
   ((display_mode_filter_characterization
        (IgnoreGlobs.fromPatterns ["node_modules"])
        ⟨some "README", false⟩ "README" rfl).2 (by decide)).1⟩

/-! ## Streaming LLM output (`src/stream/aggregated_chat_stream.rs`)

`AggregatedChatStream::poll_next` maps each `Ok` entry of the source to
one serialized JSON object and forwards each `Err` unchanged; nothing
is buffered across items, so outputs stand in the positions of their
inputs.  The JSON value is modelled structurally (an ordered field
list); string rendering of the value is the serializer's concern and
carries no claim.  The `format!("{:?}", ..)` renderings of the
metadata-derived columns are carried as pre-rendered string fields of
the entry. -/

/-- `stream::StreamError`. -/
inductive StreamError where
  | io (msg : String)
  | git (msg : String)
  | traversal (msg : String)
deriving DecidableEq, Repr

/-- The JSON values `entry_to_json` builds. -/
inductive Json where
  | str (s : String)
  | num (n : ℕ)
  | bool (b : Bool)
  | null
  | obj (fields : List (String × Json))

/-- Field lookup in a JSON object. -/
def Json.lookup (j : Json) (key : String) : Option Json :=
  match j with
  | .obj fields => List.lookup key fields
  | _ => none

/-- serde's serialization of an `Option<String>`: `null` for `None`. -/
def optStr : Option String → Json
  | some s => .str s
  | none => .null

/-- `stream::FileEntry` at the level `entry_to_json` consumes it: path
components, name, pre-rendered kind/date/permission/owner/inode/links/
status columns, byte size, depth and the symlink flag. -/
structure FileEntry where
  path : List String
  name : String
  fileTypeRepr : String
  size : ℕ
  modifiedRepr : String
  permissionsRepr : String
  ownerRepr : Option String
  isSymlink : Bool
  inodeRepr : Option String
  linksRepr : Option String
  gitStatusRepr : Option String
  depth : ℕ

/-- `AggregatedChatStream::entry_to_json`: the JSON object emitted for
one entry, fields in construction order, with the operator-supplied
objective and current task copied verbatim. -/
def entryToJson (objective currentTask : Option String) (e : FileEntry) :
    Json :=
  .obj [
    ("path", .str (String.intercalate "/" e.path)),
    ("name", .str e.name),
    ("type", .str e.fileTypeRepr),
    ("size", .num e.size),
    ("modified", .str e.modifiedRepr),
    ("permissions", .str e.permissionsRepr),
    ("owner", optStr e.ownerRepr),
    ("symlink", .bool e.isSymlink),
    ("inode", optStr e.inodeRepr),
    ("links", optStr e.linksRepr),
    ("git_status", optStr e.gitStatusRepr),
    ("depth", .num e.depth),
    ("objective", optStr objective),
    ("current_task", optStr currentTask)]

/-- `AggregatedChatStream::poll_next`, collected over a finished source:
each `Ok` entry becomes one JSON line, each `Err` is forwarded in its
position. -/
def aggregatedChatStream (objective currentTask : Option String)
    (items : List (Except StreamError FileEntry)) :
    List (Except StreamError Json) :=
  items.map
    (fun r =>
      match r with
      | .ok entry => .ok (entryToJson objective currentTask entry)
      | .error e => .error e)

/-- C10: the streaming LLM output stage emits exactly one JSON line per
successfully traversed entry, in source order and position (errors pass
through in place), and each line carries the entry's path, name, kind,
size and depth together with the operator-supplied objective and
current-task strings verbatim. -/
theorem aggregated_chat_stream_positional (objective currentTask : Option String)
    (items : List (Except StreamError FileEntry)) :
    (aggregatedChatStream objective currentTask items).length = items.length
    ∧ ∀ i (h : i < items.length),
        (∀ err, items.get ⟨i, h⟩ = .error err →
          (aggregatedChatStream objective currentTask items).get
            ⟨i, by simpa [aggregatedChatStream] using h⟩ = .error err)
        ∧ ∀ ent, items.get ⟨i, h⟩ = .ok ent →
            (aggregatedChatStream objective currentTask items).get
              ⟨i, by simpa [aggregatedChatStream] using h⟩
              = .ok (entryToJson objective currentTask ent)
            ∧ (entryToJson objective currentTask ent).lookup "path"
                = some (.str (String.intercalate "/" ent.path))
            ∧ (entryToJson objective currentTask ent).lookup "name"
                = some (.str ent.name)
            ∧ (entryToJson objective currentTask ent).lookup "type"
                = some (.str ent.fileTypeRepr)
            ∧ (entryToJson objective currentTask ent).lookup "size"
                = some (.num ent.size)
            ∧ (entryToJson objective currentTask ent).lookup "depth"
                = some (.num ent.depth)
            ∧ (entryToJson objective currentTask ent).lookup "objective"
                = some (optStr objective)
            ∧ (entryToJson objective currentTask ent).lookup "current_task"
                = some (optStr currentTask) := by
  refine ⟨by simp [aggregatedChatStream], fun i h => ⟨?_, ?_⟩⟩
  · intro err herr
    unfold aggregatedChatStream
    rw [List.get_map]
    simp only [herr]
  · intro ent hent
    refine ⟨?_, ?_, ?_, ?_, ?_, ?_, ?_, ?_⟩
    · unfold aggregatedChatStream
      rw [List.get_map]
      simp only [hent]
    all_goals simp [entryToJson, Json.lookup, List.lookup]

/-- A concrete entry for instantiating the streaming-output theorem. -/
def chatSampleEntry : FileEntry :=
  ⟨["r", "f.txt"], "f.txt", "File", 3, "date", "perm", none, false,
    none, none, none, 1⟩

/-- Concrete instantiation of `aggregated_chat_stream_positional`: a
one-entry source yields exactly the one JSON line, with the objective
copied verbatim. -/
theorem aggregated_chat_stream_positional_witness :
    0 < ([Except.ok chatSampleEntry] :
        List (Except StreamError FileEntry)).length
    ∧ (aggregatedChatStream (some "obj") (some "task")
          [Except.ok chatSampleEntry]).get ⟨0, by decide⟩
        = .ok (entryToJson (some "obj") (some "task") chatSampleEntry)
    ∧ (entryToJson (some "obj") (some "task") chatSampleEntry).lookup
        "objective" = some (optStr (some "obj")) :=
  ⟨by decide,
   ((aggregated_chat_stream_positional (some "obj") (some "task")
        [Except.ok chatSampleEntry]).2 0 (by decide)).2
      chatSampleEntry rfl |>.1,
   ((aggregated_chat_stream_positional (some "obj") (some "task")
        [Except.ok chatSampleEntry]).2 0 (by decide)).2
      chatSampleEntry rfl |>.2.2.2.2.2.2.1⟩

/-! ## Tree aggregation (`src/core.rs`, `Core::display_tree_stream`)

After buffering the stream, the tree path (lines 172–219 of
`src/core.rs`) sorts the entries by depth descending (`sort_by`, a
stable sort, modelled by `mergeSort`), builds a map from path to
`Meta` (each with empty `content`), marks as child paths those whose
filesystem parent is a key of the map, clones each child into its
parent's `content` in that sorted order, and finally collects as roots
the metas of the entries that are not child paths.  The `HashMap` is
modelled as a function from path to `Option Meta`.  No diagnostic of
any kind is emitted by this tree-building step — its only stderr
output, earlier in the function, concerns stream errors. -/

/-- The buffered stream entry as `display_tree_stream` consumes it:
path components, display name, traversal depth. -/
structure CoreEntry where
  path : List String
  name : String
  depth : ℕ
deriving DecidableEq, Repr

/-- `FileEntry::to_meta`: a `Meta` with the entry's path and name and
no content yet. -/
def CoreEntry.toMeta (e : CoreEntry) : Meta :=
  Meta.mk e.path e.name none

/-- Rust `Path::parent()` on component lists: none at the root, the
path without its last component otherwise. -/
def parentOf (p : List String) : Option (List String) :=
  if p = [] then none else some p.dropLast

/-- The `HashMap<PathBuf, Meta>` of the tree builder, as a function. -/
def PMap : Type := List String → Option Meta

/-- Map insertion (`HashMap::insert`, overwriting). -/
def PMap.insert (m : PMap) (k : List String) (v : Meta) : PMap :=
  fun q => if q = k then some v else m q

/-- `entries.sort_by(|a, b| b.depth.cmp(&a.depth))`: stable sort by
depth, deepest first. -/
def sortByDepthDesc (es : List CoreEntry) : List CoreEntry :=
  es.mergeSort (fun a b => b.depth ≤ a.depth)

/-- First pass: insert every entry's `Meta` keyed by its path. -/
def buildMetaMap (es : List CoreEntry) : PMap :=
  es.foldl (fun m e => m.insert e.path e.toMeta) (fun _ => none)

/-- The `child_paths` set: paths of entries whose parent path is a key
of the map. -/
def childPaths (es : List CoreEntry) (m : PMap) : List (List String) :=
  es.filterMap
    (fun e =>
      match parentOf e.path with
      | some pp => if (m pp).isSome then some e.path else none
      | none => none)

/-- Appending one cloned child to a parent's `content` (`None` becomes
an empty vector first). -/
def pushChild (parentMeta childMeta : Meta) : Meta :=
  Meta.mk parentMeta.path parentMeta.name
    (some (parentMeta.content.getD [] ++ [childMeta]))

/-- The body of one attach iteration once the parent path is known:
when the entry is a child path, clone its current map value into its
parent's `content`. -/
def attachAt (cp : List (List String)) (m : PMap)
    (childPath pp : List String) : PMap :=
  if childPath ∈ cp then
    match m childPath with
    | some childMeta =>
      match m pp with
      | some parentMeta => m.insert pp (pushChild parentMeta childMeta)
      | none => m
    | none => m
  else m

/-- One iteration of the second pass (`for entry in &entries` of the
parent-child loop): entries without a parent path are skipped. -/
def attachStep (cp : List (List String)) (m : PMap) (e : CoreEntry) :
    PMap :=
  match parentOf e.path with
  | some pp => attachAt cp m e.path pp
  | none => m

/-- Second pass: attach every child to its parent, in sorted order. -/
def attachPass (es : List CoreEntry) (cp : List (List String))
    (m : PMap) : PMap :=
  es.foldl (attachStep cp) m

/-- Third pass: collect the metas of the non-child entries as roots. -/
def collectRoots (es : List CoreEntry) (cp : List (List String))
    (m : PMap) : List Meta :=
  es.filterMap (fun e => if e.path ∈ cp then none else m e.path)

/-- The whole tree reconstruction of `display_tree_stream` (before the
final `SortEngine` pass over the roots, which is outside this step). -/
def displayTreeBuild (entries : List CoreEntry) : List Meta :=
  let es := sortByDepthDesc entries
  let m0 := buildMetaMap es
  let cp := childPaths es m0
  collectRoots es cp (attachPass es cp m0)

/-- The per-node diagnostics emitted by the tree-building step of
`display_tree_stream`: there are none — the function contains no
orphan detection and writes nothing to stderr while building the
tree. -/
def displayTreeDiagnostics (_entries : List CoreEntry) : List String :=
  []

/-- C1, failing input: the repository's own integration test scenario
(`tests/integration_orphaned_test.rs`): after visible-only filtering
drops `.hidden`, the buffered entries are the root `t`, `t/visible`,
`t/visible/file.txt` and the orphan `t/.hidden/config`.  The claim (and
the test) require exactly one diagnostic naming `config` and `.hidden`;
the tree-building step of `display_tree_stream` emits no diagnostic at
all and instead surfaces the orphaned child as an additional root. -/
theorem tree_stream_no_orphan_diagnostic :
    displayTreeDiagnostics
        [⟨["t"], "t", 0⟩, ⟨["t", "visible"], "visible", 1⟩,
         ⟨["t", "visible", "file.txt"], "file.txt", 2⟩,
         ⟨["t", ".hidden", "config"], "config", 2⟩]
      = []
    ∧ (displayTreeBuild
          [⟨["t"], "t", 0⟩, ⟨["t", "visible"], "visible", 1⟩,
           ⟨["t", "visible", "file.txt"], "file.txt", 2⟩,
           ⟨["t", ".hidden", "config"], "config", 2⟩]).map Meta.path
      = [["t", ".hidden", "config"], ["t"]] := by
  constructor
  · rfl
  · have hsort : sortByDepthDesc
        [⟨["t"], "t", 0⟩, ⟨["t", "visible"], "visible", 1⟩,
         ⟨["t", "visible", "file.txt"], "file.txt", 2⟩,
         ⟨["t", ".hidden", "config"], "config", 2⟩]
        = [⟨["t", "visible", "file.txt"], "file.txt", 2⟩,
           ⟨["t", ".hidden", "config"], "config", 2⟩,
           ⟨["t", "visible"], "visible", 1⟩, ⟨["t"], "t", 0⟩] := by
      simp [sortByDepthDesc, List.mergeSort]
    unfold displayTreeBuild
    rw [hsort]
    decide

mutual

/-- Multiset of the paths of all nodes in a `Meta` tree. -/
def metaPaths : Meta → Multiset (List String)
  | .mk p _ c => p ::ₘ metaPathsOpt c

/-- Paths in an optional child list. -/
def metaPathsOpt : Option (List Meta) → Multiset (List String)
  | none => 0
  | some l => metaPathsList l

/-- Paths in a child list. -/
def metaPathsList : List Meta → Multiset (List String)
  | [] => 0
  | m :: rest => metaPaths m + metaPathsList rest

end

/-- Paths in a list of trees, as a map-sum. -/
lemma metaPathsList_eq (l : List Meta) :
    metaPathsList l = (l.map metaPaths).sum := by
  induction l with
  | nil => rfl
  | cons hd tl ih => simp [metaPathsList, ih]

/-- The `Meta` a parent holds after attaching a given (possibly empty)
child list: `content` is `none` exactly when no child was pushed. -/
def mkContent (e : CoreEntry) (children : List Meta) : Meta :=
  Meta.mk e.path e.name
    (match children with
     | [] => none
     | l => some l)

/-- Pushing one more child onto an attached state appends it. -/
lemma pushChild_mkContent (e : CoreEntry) (l : List Meta) (c : Meta) :
    pushChild (mkContent e l) c = mkContent e (l ++ [c]) := by
  cases l with
  | nil => rfl
  | cons hd tl =>
    simp [pushChild, mkContent, Meta.path, Meta.name, Meta.content]

/-- An attached state with no children is the plain `to_meta` result. -/
lemma mkContent_nil (e : CoreEntry) : mkContent e [] = e.toMeta := rfl

/-- Paths of an attached state: the entry's path plus its children's. -/
lemma metaPaths_mkContent (e : CoreEntry) (l : List Meta) :
    metaPaths (mkContent e l) = e.path ::ₘ (l.map metaPaths).sum := by
  cases l with
  | nil => simp [mkContent, metaPaths, metaPathsOpt]
  | cons hd tl =>
    simp [mkContent, metaPaths, metaPathsOpt, metaPathsList_eq]

/-- Path field of an attached state. -/
lemma mkContent_path (e : CoreEntry) (l : List Meta) :
    (mkContent e l).path = e.path := by
  cases l <;> rfl

/-- The insertion fold leaves keys that no entry owns untouched. -/
lemma insertFold_not_mem (es : List CoreEntry) (m : PMap)
    (q : List String) (hq : ∀ e ∈ es, e.path ≠ q) :
    (es.foldl (fun m e => m.insert e.path e.toMeta) m) q = m q := by
  induction es generalizing m with
  | nil => rfl
  | cons hd tl ih =>
    simp only [List.foldl_cons]
    rw [ih _ (fun e he => hq e (List.mem_cons_of_mem hd he))]
    unfold PMap.insert
    rw [if_neg (fun hcontra => hq hd (List.mem_cons_self hd tl) hcontra.symm)]

/-- Under distinct paths, the insertion fold maps each entry's path to
its `to_meta`. -/
lemma insertFold_get : ∀ (es : List CoreEntry) (e : CoreEntry),
    e ∈ es → (es.map CoreEntry.path).Nodup → ∀ (m : PMap),
    (es.foldl (fun m e => m.insert e.path e.toMeta) m) e.path
      = some e.toMeta := by
  intro es
  induction es with
  | nil => intro e he; exact absurd he (List.not_mem_nil e)
  | cons hd tl ih =>
    intro e he hnd m
    simp only [List.foldl_cons]
    rcases List.mem_cons.mp he with rfl | he'
    · have hnot : ∀ x ∈ tl, x.path ≠ e.path := by
        intro x hx hcontra
        have : e.path ∈ tl.map CoreEntry.path :=
          List.mem_map.mpr ⟨x, hx, hcontra⟩
        exact (List.nodup_cons.mp hnd).1 this
      rw [insertFold_not_mem tl _ e.path hnot]
      unfold PMap.insert
      rw [if_pos rfl]
    · exact ih e he' (List.nodup_cons.mp hnd).2 _

/-- A key is present in the insertion fold exactly when the start map
holds it or some entry owns it. -/
lemma insertFold_isSome (es : List CoreEntry) (m : PMap) (q : List String) :
    ((es.foldl (fun m e => m.insert e.path e.toMeta) m) q).isSome
      ↔ (m q).isSome ∨ q ∈ es.map CoreEntry.path := by
  induction es generalizing m with
  | nil => simp
  | cons hd tl ih =>
    simp only [List.foldl_cons, List.map_cons, List.mem_cons]
    rw [ih]
    unfold PMap.insert
    by_cases hq : q = hd.path
    · simp [hq]
    · simp only [if_neg hq]
      constructor
      · rintro (h | h)
        · exact Or.inl h
        · exact Or.inr (Or.inr h)
      · rintro (h | h | h)
        · exact Or.inl h
        · exact absurd h hq
        · exact Or.inr h

/-- Keys of `buildMetaMap` are exactly the entry paths. -/
lemma buildMetaMap_isSome (es : List CoreEntry) (q : List String) :
    ((buildMetaMap es) q).isSome ↔ q ∈ es.map CoreEntry.path := by
  unfold buildMetaMap
  rw [insertFold_isSome]
  simp

/-- `buildMetaMap` at an entry's own path. -/
lemma buildMetaMap_get (es : List CoreEntry) (e : CoreEntry) (he : e ∈ es)
    (hnd : (es.map CoreEntry.path).Nodup) :
    (buildMetaMap es) e.path = some e.toMeta :=
  insertFold_get es e he hnd _

/-- Membership in `child_paths`, in terms of the buffered set. -/
lemma childPaths_mem (es : List CoreEntry) (m : PMap) (q : List String) :
    q ∈ childPaths es m
      ↔ ∃ e ∈ es, e.path = q
          ∧ ∃ pp, parentOf e.path = some pp ∧ (m pp).isSome := by
  unfold childPaths
  rw [List.mem_filterMap]
  constructor
  · rintro ⟨e, he, hsome⟩
    cases hpp : parentOf e.path with
    | none => rw [hpp] at hsome; exact absurd hsome (by simp)
    | some pp =>
      rw [hpp] at hsome
      have hsome2 : (if (m pp).isSome = true then some e.path else none)
          = some q := hsome
      by_cases hs : (m pp).isSome = true
      · rw [if_pos hs] at hsome2
        exact ⟨e, he, Option.some.inj hsome2, pp, hpp, hs⟩
      · rw [if_neg hs] at hsome2
        exact absurd hsome2 (by simp)
  · rintro ⟨e, he, rfl, pp, hpp, hs⟩
    refine ⟨e, he, ?_⟩
    rw [hpp]
    show (if (m pp).isSome = true then some e.path else none) = some e.path
    rw [if_pos hs]

/-- Entries with equal paths are equal when the path list is nodup. -/
lemma entry_path_inj (es : List CoreEntry)
    (hnd : (es.map CoreEntry.path).Nodup) (a b : CoreEntry)
    (ha : a ∈ es) (hb : b ∈ es) (hab : a.path = b.path) : a = b :=
  List.inj_on_of_nodup_map hnd ha hb hab

/-- For a buffered entry, `child_paths` membership says exactly that
its parent path is a buffered path. -/
lemma childPaths_iff (es : List CoreEntry)
    (hnd : (es.map CoreEntry.path).Nodup) (c : CoreEntry) (hc : c ∈ es) :
    c.path ∈ childPaths es (buildMetaMap es)
      ↔ ∃ pp, parentOf c.path = some pp ∧ pp ∈ es.map CoreEntry.path := by
  rw [childPaths_mem]
  constructor
  · rintro ⟨e, he, hpath, pp, hpp, hs⟩
    have : e = c := entry_path_inj es hnd e c he hc hpath
    subst this
    exact ⟨pp, hpp, (buildMetaMap_isSome es pp).mp hs⟩
  · rintro ⟨pp, hpp, hmem⟩
    exact ⟨c, hc, rfl, pp, hpp, (buildMetaMap_isSome es pp).mpr hmem⟩

/-- One attach iteration never adds or removes a key. -/
lemma attachStep_isSome (cp : List (List String)) (m : PMap)
    (e : CoreEntry) (q : List String) :
    ((attachStep cp m e) q).isSome = (m q).isSome := by
  unfold attachStep
  cases hpp : parentOf e.path with
  | none => rfl
  | some pp =>
    show ((attachAt cp m e.path pp) q).isSome = (m q).isSome
    unfold attachAt
    split
    next hcp =>
      cases hme : m e.path with
      | none => rfl
      | some cm =>
        show ((match m pp with
               | some parentMeta => m.insert pp (pushChild parentMeta cm)
               | none => m) q).isSome = (m q).isSome
        cases hmp : m pp with
        | none => rfl
        | some pm =>
          show ((m.insert pp (pushChild pm cm)) q).isSome = (m q).isSome
          unfold PMap.insert
          by_cases hq : q = pp
          · subst hq
            rw [if_pos rfl, hmp]
            rfl
          · rw [if_neg hq]
    next hcp => rfl

/-- One attach iteration only rewrites the processed entry's parent
key. -/
lemma attachStep_untouched (cp : List (List String)) (m : PMap)
    (e : CoreEntry) (q : List String) (h : parentOf e.path ≠ some q) :
    (attachStep cp m e) q = m q := by
  unfold attachStep
  cases hpp : parentOf e.path with
  | none => rfl
  | some pp =>
    have hqpp : q ≠ pp := by
      intro hcontra
      exact h (hcontra ▸ hpp)
    show (attachAt cp m e.path pp) q = m q
    unfold attachAt
    split
    next hcp =>
      cases hme : m e.path with
      | none => rfl
      | some cm =>
        show (match m pp with
              | some parentMeta => m.insert pp (pushChild parentMeta cm)
              | none => m) q = m q
        cases hmp : m pp with
        | none => rfl
        | some pm =>
          show (m.insert pp (pushChild pm cm)) q = m q
          unfold PMap.insert
          rw [if_neg hqpp]
    next hcp => rfl

/-- A fold of attach iterations over entries none of whose parents is
`q` leaves key `q` unchanged. -/
lemma attachFold_untouched (es : List CoreEntry) (cp : List (List String))
    (m : PMap) (q : List String)
    (h : ∀ e ∈ es, parentOf e.path ≠ some q) :
    (es.foldl (attachStep cp) m) q = m q := by
  induction es generalizing m with
  | nil => rfl
  | cons hd tl ih =>
    simp only [List.foldl_cons]
    rw [ih _ (fun e he => h e (List.mem_cons_of_mem hd he)),
      attachStep_untouched cp m hd q (h hd (List.mem_cons_self hd tl))]

/-- The attach fold preserves the key set. -/
lemma attachFold_isSome (es : List CoreEntry) (cp : List (List String))
    (m : PMap) (q : List String) :
    ((es.foldl (attachStep cp) m) q).isSome = (m q).isSome := by
  induction es generalizing m with
  | nil => rfl
  | cons hd tl ih =>
    simp only [List.foldl_cons]
    rw [ih, attachStep_isSome]

/-- The attach fold at `q` is already settled once every entry whose
parent is `q` lies in the first `k` positions. -/
lemma attach_stable_suffix (cp : List (List String)) (L : List CoreEntry)
    (m : PMap) (k : ℕ) (q : List String)
    (h : ∀ e ∈ L.drop k, parentOf e.path ≠ some q) :
    (L.foldl (attachStep cp) m) q
      = ((L.take k).foldl (attachStep cp) m) q := by
  conv_lhs => rw [← List.take_append_drop k L]
  rw [List.foldl_append]
  exact attachFold_untouched (L.drop k) cp _ q h

/-- Unfolding one step of the prefix fold. -/
lemma foldl_take_succ (L : List CoreEntry) (cp : List (List String))
    (m : PMap) (k : ℕ) (hk : k < L.length) :
    (L.take (k + 1)).foldl (attachStep cp) m
      = attachStep cp ((L.take k).foldl (attachStep cp) m)
          (L.get ⟨k, hk⟩) := by
  have htake : L.take (k + 1) = L.take k ++ [L.get ⟨k, hk⟩] := by
    rw [List.take_succ, List.getElem?_eq_getElem hk]
    rfl
  rw [htake, List.foldl_append]
  rfl

/-- Membership in a dropped suffix gives an index at or past the cut. -/
lemma mem_drop_index (L : List CoreEntry) (k : ℕ) (e : CoreEntry)
    (he : e ∈ L.drop k) :
    ∃ i, ∃ hi : i < L.length, k ≤ i ∧ L.get ⟨i, hi⟩ = e := by
  rcases List.mem_iff_getElem.mp he with ⟨t, ht, hget⟩
  have hlen : k + t < L.length := by
    have := ht
    rw [List.length_drop] at this
    omega
  refine ⟨k + t, hlen, Nat.le_add_right k t, ?_⟩
  rw [← hget]
  rw [List.getElem_drop]
  rfl

/-- In a depth-descending order consistent with the strict parent-depth
hypothesis, every child occurs strictly before its parent. -/
lemma child_before_parent (L : List CoreEntry)
    (hdepth : ∀ a ∈ L, ∀ b ∈ L, parentOf a.path = some b.path →
      b.depth < a.depth)
    (hsorted : List.Pairwise (fun a b => b.depth ≤ a.depth) L)
    (i j : ℕ) (hi : i < L.length) (hj : j < L.length)
    (hrel : parentOf (L.get ⟨i, hi⟩).path = some (L.get ⟨j, hj⟩).path) :
    i < j := by
  have hd : (L.get ⟨j, hj⟩).depth < (L.get ⟨i, hi⟩).depth :=
    hdepth _ (L.get_mem _ _) _ (L.get_mem _ _) hrel
  by_contra hcon
  push_neg at hcon
  rcases Nat.lt_or_ge j i with hji | hij
  · have := (List.pairwise_iff_get.mp hsorted) ⟨j, hj⟩ ⟨i, hi⟩ hji
    omega
  · have : i = j := by omega
    subst this
    omega

/-- The buffered entries whose filesystem parent is `p`, in buffer
order. -/
def childrenOf (L : List CoreEntry) (p : List String) : List CoreEntry :=
  L.filter (fun c => decide (parentOf c.path = some p))

/-- The map value an entry's path holds when the attach pass has
finished (its fully attached subtree). -/
def finalAt (L : List CoreEntry) (c : CoreEntry) : Meta :=
  (attachPass L (childPaths L (buildMetaMap L)) (buildMetaMap L)
    c.path).getD c.toMeta

/-- An attach iteration for an entry with a known parent path. -/
lemma attachStep_eq_attachAt (cp : List (List String)) (m : PMap)
    (e : CoreEntry) (pp : List String) (h : parentOf e.path = some pp) :
    attachStep cp m e = attachAt cp m e.path pp := by
  unfold attachStep
  rw [h]

/-- Evaluating an attach iteration whose guards all hold. -/
lemma attachAt_eval (cp : List (List String)) (m : PMap)
    (childPath pp : List String) (cm pm : Meta)
    (hcp : childPath ∈ cp) (hcm : m childPath = some cm)
    (hpm : m pp = some pm) :
    attachAt cp m childPath pp = m.insert pp (pushChild pm cm) := by
  unfold attachAt
  rw [if_pos hcp, hcm, hpm]

/-- Invariant of the attach pass: after the first `k` iterations, each
buffered entry's key holds the entry attached to exactly the children
among the first `k` entries, each already carrying its own final
subtree. -/
lemma attach_invariant (L : List CoreEntry)
    (hnd : (L.map CoreEntry.path).Nodup)
    (hdepth : ∀ a ∈ L, ∀ b ∈ L, parentOf a.path = some b.path →
      b.depth < a.depth)
    (hsorted : List.Pairwise (fun a b => b.depth ≤ a.depth) L) :
    ∀ (k : ℕ), k ≤ L.length → ∀ e ∈ L,
      ((L.take k).foldl (attachStep (childPaths L (buildMetaMap L)))
          (buildMetaMap L)) e.path
        = some (mkContent e
            ((childrenOf (L.take k) e.path).map (finalAt L))) := by
  intro k
  induction k with
  | zero =>
    intro _ e he
    simp only [List.take_zero, List.foldl_nil, childrenOf, List.filter_nil,
      List.map_nil, mkContent_nil]
    exact buildMetaMap_get L e he hnd
  | succ k ih =>
    intro hk1 e he
    have hk : k < L.length := by omega
    have ihk := ih (by omega)
    set cp := childPaths L (buildMetaMap L) with hcp_def
    set m0 := buildMetaMap L with hm0_def
    set x := L.get ⟨k, hk⟩ with hx_def
    have hstep := foldl_take_succ L cp m0 k hk
    rw [hstep]
    have hxmem : x ∈ L := L.get_mem _ _
    by_cases hrel : parentOf x.path = some e.path
    · -- the processed entry is a child of `e`: one more push
      have hxcp : x.path ∈ cp := by
        rw [hcp_def]
        exact (childPaths_iff L hnd x hxmem).mpr
          ⟨e.path, hrel, List.mem_map.mpr ⟨e, he, rfl⟩⟩
      have hAkx := ihk x hxmem
      have hAke := ihk e he
      -- the clone taken at step k is already the final subtree of x
      have hstable : (L.foldl (attachStep cp) m0) x.path
          = ((L.take k).foldl (attachStep cp) m0) x.path := by
        apply attach_stable_suffix
        intro e' he' hcontra
        rcases mem_drop_index L k e' he' with ⟨i, hi, hki, hgi⟩
        have : i < k :=
          child_before_parent L hdepth hsorted i k hi hk
            (by rw [hgi]; exact hcontra)
        omega
      have hfinal : finalAt L x
          = mkContent x ((childrenOf (L.take k) x.path).map (finalAt L)) := by
        unfold finalAt attachPass
        rw [← hcp_def, ← hm0_def, hstable, hAkx]
        rfl
      rw [attachStep_eq_attachAt cp _ x e.path hrel,
        attachAt_eval cp _ x.path e.path _ _ hxcp hAkx hAke]
      unfold PMap.insert
      rw [if_pos rfl]
      have htake : L.take (k + 1) = L.take k ++ [x] := by
        rw [List.take_succ, List.getElem?_eq_getElem hk]
        rfl
      have hchildren : childrenOf (L.take (k + 1)) e.path
          = childrenOf (L.take k) e.path ++ [x] := by
        unfold childrenOf
        rw [htake, List.filter_append]
        congr 1
        simp [hrel]
      rw [hchildren, pushChild_mkContent, List.map_append, List.map_singleton,
        hfinal]
    · -- the processed entry is not a child of `e`: nothing changes
      rw [attachStep_untouched cp _ x e.path hrel]
      have htake : L.take (k + 1) = L.take k ++ [x] := by
        rw [List.take_succ, List.getElem?_eq_getElem hk]
        rfl
      have hchildren : childrenOf (L.take (k + 1)) e.path
          = childrenOf (L.take k) e.path := by
        unfold childrenOf
        rw [htake, List.filter_append]
        simp [hrel]
      rw [hchildren]
      exact ihk e he

/-- The fully attached map value of a buffered entry: the entry with its
buffered children, each carrying its own final subtree. -/
lemma finalAt_eq (L : List CoreEntry)
    (hnd : (L.map CoreEntry.path).Nodup)
    (hdepth : ∀ a ∈ L, ∀ b ∈ L, parentOf a.path = some b.path →
      b.depth < a.depth)
    (hsorted : List.Pairwise (fun a b => b.depth ≤ a.depth) L)
    (e : CoreEntry) (he : e ∈ L) :
    finalAt L e = mkContent e ((childrenOf L e.path).map (finalAt L)) := by
  have hinv := attach_invariant L hnd hdepth hsorted L.length le_rfl e he
  rw [List.take_length] at hinv
  unfold finalAt attachPass
  rw [hinv]
  rfl

/-- Whether an entry's parent path lies in a given path list. -/
def hasParentIn (paths : List (List String)) (c : CoreEntry) : Bool :=
  match parentOf c.path with
  | some pp => decide (pp ∈ paths)
  | none => false

/-- `hasParentIn` on a cons splits into head-parenthood or the rest. -/
lemma hasParentIn_cons (p : List String) (ps : List (List String))
    (c : CoreEntry) :
    hasParentIn (p :: ps) c
      = (decide (parentOf c.path = some p) || hasParentIn ps c) := by
  cases hpp : parentOf c.path with
  | none => simp [hasParentIn, hpp]
  | some pp => simp [hasParentIn, hpp]

/-- No entry has its parent in the empty path list. -/
lemma hasParentIn_nil (c : CoreEntry) : hasParentIn [] c = false := by
  cases hpp : parentOf c.path <;> simp [hasParentIn, hpp]

/-- Summing a map over a filter by a disjoint disjunction splits. -/
lemma filter_or_map_sum {α β : Type} (l : List α) (p q : α → Bool)
    (hdis : ∀ x ∈ l, ¬(p x = true ∧ q x = true))
    (f : α → Multiset β) :
    ((l.filter (fun x => p x || q x)).map f).sum
      = ((l.filter p).map f).sum + ((l.filter q).map f).sum := by
  induction l with
  | nil => simp
  | cons hd tl ih =>
    have ihtl := ih (fun x hx => hdis x (List.mem_cons_of_mem hd hx))
    cases hp : p hd with
    | true =>
      have hq : q hd = false := by
        cases hqv : q hd with
        | false => rfl
        | true => exact absurd ⟨hp, hqv⟩ (hdis hd (List.mem_cons_self hd tl))
      simp [List.filter_cons, hp, hq, ihtl, add_assoc]
    | false =>
      cases hq : q hd with
      | true =>
        simp [List.filter_cons, hp, hq, ihtl, add_left_comm, add_assoc]
      | false =>
        simp [List.filter_cons, hp, hq, ihtl]

/-- Exchange of summation: summing each listed parent's children equals
summing over the entries whose parent is listed (parents are unique per
child). -/
lemma children_sum_exchange (L : List CoreEntry)
    (f : CoreEntry → Multiset (List String)) :
    ∀ (out : List CoreEntry), (out.map CoreEntry.path).Nodup →
      (out.map (fun e => ((childrenOf L e.path).map f).sum)).sum
        = ((L.filter (hasParentIn (out.map CoreEntry.path))).map f).sum := by
  intro out
  induction out with
  | nil =>
    intro _
    have hfe : L.filter (hasParentIn []) = [] :=
      List.filter_eq_nil_iff.mpr
        (fun c _ => by rw [hasParentIn_nil]; exact Bool.false_ne_true)
    simp [hfe]
  | cons e out ih =>
    intro hnd
    have hnotin : e.path ∉ out.map CoreEntry.path := (List.nodup_cons.mp hnd).1
    have ihout := ih (List.nodup_cons.mp hnd).2
    have hcongr : L.filter (hasParentIn (e.path :: out.map CoreEntry.path))
        = L.filter (fun c =>
            decide (parentOf c.path = some e.path)
              || hasParentIn (out.map CoreEntry.path) c) :=
      List.filter_congr (fun c _ => hasParentIn_cons _ _ c)
    have hdis : ∀ c ∈ L,
        ¬(decide (parentOf c.path = some e.path) = true
          ∧ hasParentIn (out.map CoreEntry.path) c = true) := by
      rintro c _ ⟨h1, h2⟩
      have hpp : parentOf c.path = some e.path := of_decide_eq_true h1
      unfold hasParentIn at h2
      rw [hpp] at h2
      exact hnotin (of_decide_eq_true h2)
    rw [List.map_cons, List.sum_cons, List.map_cons, hcongr,
      filter_or_map_sum L _ _ hdis f, ihout]
    rfl

/-- Summing the singleton path of every entry recovers the path
multiset. -/
lemma sum_map_singleton_path (L : List CoreEntry) :
    (L.map (fun e => ({e.path} : Multiset (List String)))).sum
      = ↑(L.map CoreEntry.path) := by
  induction L with
  | nil => rfl
  | cons hd tl ih =>
    simp only [List.map_cons, List.sum_cons, ih]
    rw [← Multiset.cons_coe, ← Multiset.singleton_add]

/-- A mapped sum over a pointwise addition splits. -/
lemma sum_map_add {α β : Type} (l : List α) (g h : α → Multiset β) :
    (l.map (fun x => g x + h x)).sum = (l.map g).sum + (l.map h).sum := by
  induction l with
  | nil => simp
  | cons hd tl ih =>
    simp only [List.map_cons, List.sum_cons, ih]
    abel

/-- The reachable-path multiset of the non-child entries is exactly the
buffered path multiset: summing the recursion equation over all entries
counts every path once plus every non-root subtree once, and the
non-root subtrees cancel. -/
lemma roots_sum_paths (L : List CoreEntry)
    (hnd : (L.map CoreEntry.path).Nodup)
    (hdepth : ∀ a ∈ L, ∀ b ∈ L, parentOf a.path = some b.path →
      b.depth < a.depth)
    (hsorted : List.Pairwise (fun a b => b.depth ≤ a.depth) L) :
    ((L.filter (fun e => ! hasParentIn (L.map CoreEntry.path) e)).map
        (fun e => metaPaths (finalAt L e))).sum
      = ↑(L.map CoreEntry.path) := by
  have hT : ∀ e ∈ L, metaPaths (finalAt L e)
      = ({e.path} : Multiset (List String))
        + ((childrenOf L e.path).map (fun c => metaPaths (finalAt L c))).sum := by
    intro e he
    rw [finalAt_eq L hnd hdepth hsorted e he, metaPaths_mkContent,
      List.map_map, Multiset.singleton_add]
    rfl
  have hall : (L.map (fun e => metaPaths (finalAt L e))).sum
      = ↑(L.map CoreEntry.path)
        + ((L.filter (hasParentIn (L.map CoreEntry.path))).map
            (fun e => metaPaths (finalAt L e))).sum := by
    rw [List.map_congr_left hT, sum_map_add, sum_map_singleton_path,
      children_sum_exchange L _ L hnd]
  have hsplit : (L.map (fun e => metaPaths (finalAt L e))).sum
      = ((L.filter (hasParentIn (L.map CoreEntry.path))).map
            (fun e => metaPaths (finalAt L e))).sum
        + ((L.filter (fun e => ! hasParentIn (L.map CoreEntry.path) e)).map
            (fun e => metaPaths (finalAt L e))).sum := by
    have hp := List.filter_append_perm
      (hasParentIn (L.map CoreEntry.path)) L
    have := (hp.map (fun e => metaPaths (finalAt L e))).sum_eq
    rw [← this, List.map_append, List.sum_append]
  rw [hsplit] at hall
  have hall2 : ((L.filter (hasParentIn (L.map CoreEntry.path))).map
          (fun e => metaPaths (finalAt L e))).sum
        + ((L.filter (fun e => ! hasParentIn (L.map CoreEntry.path) e)).map
            (fun e => metaPaths (finalAt L e))).sum
      = ((L.filter (hasParentIn (L.map CoreEntry.path))).map
            (fun e => metaPaths (finalAt L e))).sum
        + ↑(L.map CoreEntry.path) := by
    rw [hall, add_comm]
  exact add_left_cancel hall2

/-- The root-collection pass, when the map holds a known value for
every buffered path, is the filtered map of those values. -/
lemma collectRoots_eq_filter (es : List CoreEntry)
    (cp : List (List String)) (m : PMap) (f : CoreEntry → Meta)
    (hm : ∀ e ∈ es, m e.path = some (f e)) :
    collectRoots es cp m
      = (es.filter (fun e => ! decide (e.path ∈ cp))).map f := by
  induction es with
  | nil => rfl
  | cons hd tl ih =>
    have ihtl := ih (fun e he => hm e (List.mem_cons_of_mem hd he))
    unfold collectRoots at ihtl ⊢
    by_cases hcp : hd.path ∈ cp
    · rw [List.filterMap_cons, List.filter_cons]
      simp [hcp, ihtl]
    · rw [List.filterMap_cons, List.filter_cons]
      simp [hcp, hm hd (List.mem_cons_self hd tl), ihtl]

/-- For a buffered entry, being a child path is exactly having a
buffered parent. -/
lemma mem_cp_iff_hasParent (L : List CoreEntry)
    (hnd : (L.map CoreEntry.path).Nodup) (e : CoreEntry) (he : e ∈ L) :
    e.path ∈ childPaths L (buildMetaMap L)
      ↔ hasParentIn (L.map CoreEntry.path) e = true := by
  rw [childPaths_iff L hnd e he]
  unfold hasParentIn
  cases hpp : parentOf e.path with
  | none => simp
  | some pp => simp

/-- The final map value keeps the entry's path. -/
lemma finalAt_path (L : List CoreEntry)
    (hnd : (L.map CoreEntry.path).Nodup)
    (hdepth : ∀ a ∈ L, ∀ b ∈ L, parentOf a.path = some b.path →
      b.depth < a.depth)
    (hsorted : List.Pairwise (fun a b => b.depth ≤ a.depth) L)
    (e : CoreEntry) (he : e ∈ L) : (finalAt L e).path = e.path := by
  rw [finalAt_eq L hnd hdepth hsorted e he, mkContent_path]

/-- The sorted buffer is a permutation of the input. -/
lemma sortByDepthDesc_perm (es : List CoreEntry) :
    (sortByDepthDesc es).Perm es :=
  List.mergeSort_perm es _

/-- The sorted buffer is pairwise depth-descending. -/
lemma sortByDepthDesc_sorted (es : List CoreEntry) :
    List.Pairwise (fun a b => b.depth ≤ a.depth) (sortByDepthDesc es) := by
  have h := @List.sorted_mergeSort CoreEntry
    (fun a b : CoreEntry => decide (b.depth ≤ a.depth))
    (fun a b c hab hbc => by
      simp only [decide_eq_true_eq] at hab hbc ⊢
      omega)
    (fun a b => by
      simp only [Bool.or_eq_true, decide_eq_true_eq]
      omega)
    es
  exact h.imp (fun hab => of_decide_eq_true hab)

/-- C7: for every buffered entry set forming a valid filesystem subtree
(distinct paths, parents strictly shallower than children), the tree
reconstruction of `display_tree_stream` reaches each input entry as
exactly one node (the multiset of reachable node paths equals the
multiset of buffered paths, so no node hangs under two parents), its
top-level roots are exactly the entries whose parent path is not itself
buffered, and the total reachable node count equals the input entry
count. -/
theorem tree_reconstruction_invariants (entries : List CoreEntry)
    (hnd : (entries.map CoreEntry.path).Nodup)
    (hdepth : ∀ a ∈ entries, ∀ b ∈ entries,
      parentOf a.path = some b.path → b.depth < a.depth) :
    ((displayTreeBuild entries).map metaPaths).sum
        = ↑(entries.map CoreEntry.path)
    ∧ ((displayTreeBuild entries).map Meta.path).Perm
        ((entries.filter
            (fun e => ! hasParentIn (entries.map CoreEntry.path) e)).map
          CoreEntry.path)
    ∧ ((displayTreeBuild entries).map metaPaths).sum.card
        = entries.length := by
  have hperm : (sortByDepthDesc entries).Perm entries :=
    sortByDepthDesc_perm entries
  have hpermmap : ((sortByDepthDesc entries).map CoreEntry.path).Perm
      (entries.map CoreEntry.path) := hperm.map _
  have hndL : ((sortByDepthDesc entries).map CoreEntry.path).Nodup :=
    hpermmap.nodup_iff.mpr hnd
  have hdepthL : ∀ a ∈ sortByDepthDesc entries,
      ∀ b ∈ sortByDepthDesc entries,
      parentOf a.path = some b.path → b.depth < a.depth :=
    fun a ha b hb =>
      hdepth a (hperm.mem_iff.mp ha) b (hperm.mem_iff.mp hb)
  have hsorted := sortByDepthDesc_sorted entries
  have hmfinal : ∀ e ∈ sortByDepthDesc entries,
      (attachPass (sortByDepthDesc entries)
          (childPaths (sortByDepthDesc entries)
            (buildMetaMap (sortByDepthDesc entries)))
          (buildMetaMap (sortByDepthDesc entries))) e.path
        = some (finalAt (sortByDepthDesc entries) e) := by
    intro e he
    have hinv := attach_invariant (sortByDepthDesc entries) hndL hdepthL
      hsorted (sortByDepthDesc entries).length le_rfl e he
    rw [List.take_length] at hinv
    unfold finalAt attachPass
    rw [hinv]
    rfl
  have hroots : displayTreeBuild entries
      = ((sortByDepthDesc entries).filter
          (fun e => ! decide (e.path ∈ childPaths (sortByDepthDesc entries)
            (buildMetaMap (sortByDepthDesc entries))))).map
          (finalAt (sortByDepthDesc entries)) := by
    show collectRoots (sortByDepthDesc entries)
        (childPaths (sortByDepthDesc entries)
          (buildMetaMap (sortByDepthDesc entries)))
        (attachPass (sortByDepthDesc entries) _ _) = _
    exact collectRoots_eq_filter _ _ _ _ hmfinal
  have hfilter1 : (sortByDepthDesc entries).filter
        (fun e => ! decide (e.path ∈ childPaths (sortByDepthDesc entries)
          (buildMetaMap (sortByDepthDesc entries))))
      = (sortByDepthDesc entries).filter
          (fun e => ! hasParentIn
            ((sortByDepthDesc entries).map CoreEntry.path) e) := by
    apply List.filter_congr
    intro e he
    have hiff := mem_cp_iff_hasParent (sortByDepthDesc entries) hndL e he
    congr 1
    cases hb : hasParentIn ((sortByDepthDesc entries).map CoreEntry.path) e
    · rw [hb] at hiff
      simp only [Bool.false_eq_true, iff_false] at hiff
      simp [hiff]
    · rw [hb] at hiff
      simp only [iff_true] at hiff
      simp [hiff]
  have hsum : ((displayTreeBuild entries).map metaPaths).sum
      = ↑((sortByDepthDesc entries).map CoreEntry.path) := by
    rw [hroots, hfilter1, List.map_map]
    exact roots_sum_paths (sortByDepthDesc entries) hndL hdepthL hsorted
  refine ⟨?_, ?_, ?_⟩
  · rw [hsum]
    exact Multiset.coe_eq_coe.mpr hpermmap
  · rw [hroots, hfilter1, List.map_map]
    have hpaths : ((sortByDepthDesc entries).filter
          (fun e => ! hasParentIn
            ((sortByDepthDesc entries).map CoreEntry.path) e)).map
          (Meta.path ∘ finalAt (sortByDepthDesc entries))
        = ((sortByDepthDesc entries).filter
            (fun e => ! hasParentIn
              ((sortByDepthDesc entries).map CoreEntry.path) e)).map
            CoreEntry.path := by
      apply List.map_congr_left
      intro e he
      exact finalAt_path (sortByDepthDesc entries) hndL hdepthL hsorted e
        (List.mem_of_mem_filter he)
    rw [hpaths]
    have hfilter2 : (sortByDepthDesc entries).filter
          (fun e => ! hasParentIn
            ((sortByDepthDesc entries).map CoreEntry.path) e)
        = (sortByDepthDesc entries).filter
            (fun e => ! hasParentIn (entries.map CoreEntry.path) e) := by
      apply List.filter_congr
      intro e _
      congr 1
      unfold hasParentIn
      cases hpp : parentOf e.path with
      | none => rfl
      | some pp => exact decide_eq_decide.mpr hpermmap.mem_iff
    rw [hfilter2]
    exact (hperm.filter _).map _
  · rw [hsum, Multiset.coe_card, List.length_map]
    exact hperm.length_eq

/-- Concrete instantiation of `tree_reconstruction_invariants`: the
four-entry buffer of the orphan scenario yields a forest whose node
paths are exactly the four input paths. -/
theorem tree_reconstruction_invariants_witness :
    ((displayTreeBuild
        [⟨["t"], "t", 0⟩, ⟨["t", "visible"], "visible", 1⟩,
         ⟨["t", "visible", "file.txt"], "file.txt", 2⟩,
         ⟨["t", ".hidden", "config"], "config", 2⟩]).map metaPaths).sum
      = ↑([⟨["t"], "t", 0⟩, ⟨["t", "visible"], "visible", 1⟩,
           ⟨["t", "visible", "file.txt"], "file.txt", 2⟩,
           (⟨["t", ".hidden", "config"], "config", 2⟩ : CoreEntry)].map
          CoreEntry.path) :=
  (tree_reconstruction_invariants
      [⟨["t"], "t", 0⟩, ⟨["t", "visible"], "visible", 1⟩,
       ⟨["t", "visible", "file.txt"], "file.txt", 2⟩,
       ⟨["t", ".hidden", "config"], "config", 2⟩]
      (by decide) (by decide)).1
